import Mathlib

/-!
# Verification of the genji embedded database specification

A shallow embedding of the genji repository: the shell options from
`cmd/genji/shell/shell.go` are translated directly from the source; the
storage/query core (codec, catalog, table and index managers, planner,
transactions) is not part of the source tree — only its tests and callers
are — so those components are modelled from the specification, against the
behaviour its tests pin down.  All definitions are executable; theorems
settle the spec's testable properties.
-/

namespace Genji

/-! ## Byte sequences, lexicographic order, integer encodings -/

/-- Strict byte-lexicographic order on byte sequences: the order in which an
ordered key-value engine iterates its keys. -/
def lexLt : List Nat → List Nat → Bool
  | _, [] => false
  | [], _ :: _ => true
  | a :: as, b :: bs => decide (a < b) || (a == b && lexLt as bs)

/-- Big-endian fixed-width byte encoding of a natural number:
`beBytes w x` is the `w`-byte big-endian representation of `x`. -/
def beBytes : Nat → Nat → List Nat
  | 0, _ => []
  | w + 1, x => x / 256 ^ w :: beBytes w (x % 256 ^ w)

/-- Numeric value of a big-endian byte sequence. -/
def beVal : List Nat → Nat
  | [] => 0
  | b :: bs => b * 256 ^ bs.length + beVal bs

/-- Modelled from the spec: `field.EncodeInt64` (§4.2 "sign-bit flip for
integers"): an int64 is encoded as the 8-byte big-endian representation of
its value shifted by `2^63`, so that byte order matches numeric order. -/
def encodeInt64 (n : Int) : List Nat := beBytes 8 (n + 2 ^ 63).toNat

/-- Worker for `encNat`: base-128 little-endian variable-length encoding of a
natural number, with a continuation bit on every byte but the last.  The
first argument is recursion fuel (any value `≥ n` yields the encoding). -/
def encNatAux : Nat → Nat → List Nat
  | 0, n => [n]
  | fuel + 1, n => if n < 128 then [n] else (n % 128 + 128) :: encNatAux fuel (n / 128)

/-- Modelled from the spec: the self-delimiting length encoding used inside
encoded documents (§4.2 "length-aware" encoding): a base-128 varint. -/
def encNat (n : Nat) : List Nat := encNatAux n n

/-- Decoder for `encNat`; returns the decoded number and the remaining
bytes. -/
def decNat : List Nat → Option (Nat × List Nat)
  | [] => none
  | b :: bs =>
    if b < 128 then some (b, bs)
    else
      match decNat bs with
      | some (m, rest) => some (m * 128 + (b - 128), rest)
      | none => none

/-- Read exactly `k` bytes from the front of a byte sequence, failing if
fewer are available. -/
def readN (k : Nat) (bs : List Nat) : Option (List Nat × List Nat) :=
  if k ≤ bs.length then some (bs.take k, bs.drop k) else none

/-! ## IEEE-754 binary64 semantics for the float codec

Modelled from the spec (§3, §4.2): `Value` holds float64 payloads as their
64-bit patterns; the semantic value of a finite pattern is the usual
IEEE-754 binary64 interpretation, expressed as a rational.  NaN patterns
denote no number and the negative-zero pattern ties with positive zero, so
`isIndexable` below excludes both. -/

/-- Sign bit of a 64-bit float pattern. -/
def fSign (b : Nat) : Nat := b / 2 ^ 63

/-- The 63 low bits (exponent and mantissa) of a 64-bit float pattern. -/
def fRest (b : Nat) : Nat := b % 2 ^ 63

/-- Biased exponent field of a 64-bit float pattern. -/
def fExp (b : Nat) : Nat := fRest b / 2 ^ 52

/-- Mantissa field of a 64-bit float pattern. -/
def fMan (b : Nat) : Nat := fRest b % 2 ^ 52

/-- Magnitude denoted by a float pattern (subnormal when the exponent field
is zero, normal otherwise), as a rational. -/
def floatMag (b : Nat) : ℚ :=
  if fExp b = 0 then (fMan b : ℚ) * (2 : ℚ) ^ (-1074 : ℤ)
  else ((2 ^ 52 + fMan b : Nat) : ℚ) * (2 : ℚ) ^ ((fExp b : ℤ) - 1075)

/-- Semantic value of a float pattern: the signed magnitude. -/
def floatVal (b : Nat) : ℚ := if fSign b = 0 then floatMag b else -floatMag b

/-- The magnitude of a float pattern scaled by `2 ^ 1074`, as a natural
number; an order-isomorphic integer version of `floatMag`. -/
def floatMagN (b : Nat) : Nat :=
  if fExp b = 0 then fMan b else (2 ^ 52 + fMan b) * 2 ^ (fExp b - 1)

/-- A float pattern is finite when its exponent field is not all-ones (which
would denote an infinity or a NaN). -/
def floatFinite (b : Nat) : Bool := decide (b < 2 ^ 64) && decide (fExp b ≠ 2047)

/-- Modelled from the spec: the "order-preserving transform for floating
values" (§4.2): a non-negative pattern gets its sign bit set, a negative
pattern has all its bits flipped, mapping the float order onto the unsigned
integer order. -/
def floatEnc (b : Nat) : Nat := if fSign b = 0 then b + 2 ^ 63 else 2 ^ 64 - 1 - b

/-! ## Values and documents (§3) -/

/-- Modelled from the spec: a `Value` is a tagged union over null, bool,
int64, float64 (held as its bit pattern), string, byte-sequence,
array-of-Value and document (§3).  Strings and field names are held as
their byte sequences. -/
inductive Value where
  | vnull
  | vbool (b : Bool)
  | vint (n : Int)
  | vfloat (bits : Nat)
  | vstring (s : List Nat)
  | vbytes (bs : List Nat)
  | varr (vs : List Value)
  | vdoc (fs : List (List Nat × Value))

/-- A `Document` is an ordered mapping from field name to `Value`; order is
insertion order (§3). -/
abbrev Document := List (List Nat × Value)

/-- Rank of each `Value` type in the mixed-type total order (§3). -/
def typeRank : Value → Nat
  | .vnull => 0
  | .vbool _ => 1
  | .vint _ => 2
  | .vfloat _ => 3
  | .vstring _ => 4
  | .vbytes _ => 5
  | .varr _ => 6
  | .vdoc _ => 7

/-- Modelled from the spec: the type-aware semantic comparison on values
(§3): values of the same type compare by their contents (booleans with
`false < true`, numbers by numeric value, strings and byte sequences
byte-lexicographically), values of different types by type rank. -/
def vlt : Value → Value → Bool
  | .vbool a, .vbool b => !a && b
  | .vint a, .vint b => decide (a < b)
  | .vfloat a, .vfloat b => decide (floatVal a < floatVal b)
  | .vstring a, .vstring b => lexLt a b
  | .vbytes a, .vbytes b => lexLt a b
  | a, b => decide (typeRank a < typeRank b)

/-- The types a `Value` must have to be usable as an index key, and the
numeric domains the encodings cover: int64 range for integers, finite
non-NaN non-negative-zero patterns for floats. -/
def isIndexable : Value → Bool
  | .vnull => true
  | .vbool _ => true
  | .vint n => decide (-(2 ^ 63) ≤ n) && decide (n < 2 ^ 63)
  | .vfloat b => floatFinite b && decide (b ≠ 2 ^ 63)
  | .vstring _ => true
  | .vbytes _ => true
  | _ => false

mutual

/-- Modelled from the spec: the tagged, self-delimiting encoding of a value
used inside encoded documents (§4.2): a type tag byte followed by the
payload, with varint length prefixes for variable-sized payloads and
varint counts for arrays and nested documents. -/
def encVal : Value → List Nat
  | .vnull => [0]
  | .vbool b => [1, if b then 1 else 0]
  | .vint n => 2 :: encodeInt64 n
  | .vfloat bits => 3 :: beBytes 8 bits
  | .vstring s => 4 :: (encNat s.length ++ s)
  | .vbytes bs => 5 :: (encNat bs.length ++ bs)
  | .varr vs => 6 :: (encNat vs.length ++ encList vs)
  | .vdoc fs => 7 :: (encNat fs.length ++ encFields fs)

/-- Concatenated encodings of a list of values. -/
def encList : List Value → List Nat
  | [] => []
  | v :: vs => encVal v ++ encList vs

/-- Concatenated encodings of document fields: each field is a
length-prefixed name followed by the encoded value. -/
def encFields : List (List Nat × Value) → List Nat
  | [] => []
  | (nm, v) :: fs => encNat nm.length ++ nm ++ encVal v ++ encFields fs

end

/-- Modelled from the spec: `EncodeDocument` (§4.2): a varint field count
followed by the encoded fields, in insertion order. -/
def encodeDocument (d : Document) : List Nat := encNat d.length ++ encFields d

/-- Modelled from the spec: `EncodeValue` (§4.2, §3 "Key"): the
order-preserving key encoding of a single value.  Scalar encodings carry no
tag (`DecodeValue` receives the expected type): booleans are one byte,
int64 uses the sign-flipped big-endian encoding, float64 the
order-preserving transform of its bit pattern, strings and byte sequences
their raw bytes.  Composite values fall back to the document encoding. -/
def encodeValue : Value → List Nat
  | .vnull => []
  | .vbool b => [if b then 1 else 0]
  | .vint n => encodeInt64 n
  | .vfloat bits => beBytes 8 (floatEnc bits)
  | .vstring s => s
  | .vbytes bs => bs
  | v => encVal v

mutual

/-- Fuel needed by `decodeStep` to decode this value: one step per
value/list/field node. -/
def costV : Value → Nat
  | .varr vs => costL vs + 1
  | .vdoc fs => costF fs + 1
  | _ => 1

/-- Fuel needed to decode an encoded list of values. -/
def costL : List Value → Nat
  | [] => 0
  | v :: vs => max (costV v) (costL vs) + 1

/-- Fuel needed to decode encoded document fields. -/
def costF : List (List Nat × Value) → Nat
  | [] => 0
  | (_, v) :: fs => max (costV v) (costF fs) + 1

end

mutual

/-- Well-formedness of a value as stored by the Go implementation: integers
fit in int64 and float patterns in 64 bits. -/
def wfV : Value → Bool
  | .vint n => decide (-(2 ^ 63) ≤ n) && decide (n < 2 ^ 63)
  | .vfloat b => decide (b < 2 ^ 64)
  | .varr vs => wfL vs
  | .vdoc fs => wfF fs
  | _ => true

/-- Well-formedness of a list of values. -/
def wfL : List Value → Bool
  | [] => true
  | v :: vs => wfV v && wfL vs

/-- Well-formedness of document fields. -/
def wfF : List (List Nat × Value) → Bool
  | [] => true
  | (_, v) :: fs => wfV v && wfF fs

end

/-- A pending decoding task: a single value, a counted list of values, or a
counted list of document fields. -/
inductive DecTask where
  | dval (bs : List Nat)
  | dlist (n : Nat) (bs : List Nat)
  | dfields (n : Nat) (bs : List Nat)

/-- Result of a decoding task, paired with the remaining bytes. -/
inductive DecRes where
  | rval (v : Value) (rest : List Nat)
  | rlist (vs : List Value) (rest : List Nat)
  | rfields (fs : List (List Nat × Value)) (rest : List Nat)

/-- Modelled from the spec: the document decoder (§4.2), written as a single
fuel-indexed step function so that it is structurally recursive.  It
inverts `encVal`/`encList`/`encFields`. -/
def decodeStep : Nat → DecTask → Option DecRes
  | _, .dlist 0 bs => some (.rlist [] bs)
  | _, .dfields 0 bs => some (.rfields [] bs)
  | 0, _ => none
  | _ + 1, .dval [] => none
  | fuel + 1, .dval (t :: bs) =>
    if t = 0 then some (.rval .vnull bs)
    else if t = 1 then
      match bs with
      | [] => none
      | b :: bs => some (.rval (.vbool (b == 1)) bs)
    else if t = 2 then
      match readN 8 bs with
      | some (w, rest) => some (.rval (.vint ((beVal w : Int) - 2 ^ 63)) rest)
      | none => none
    else if t = 3 then
      match readN 8 bs with
      | some (w, rest) => some (.rval (.vfloat (beVal w)) rest)
      | none => none
    else if t = 4 then
      match decNat bs with
      | some (len, bs) =>
        match readN len bs with
        | some (s, rest) => some (.rval (.vstring s) rest)
        | none => none
      | none => none
    else if t = 5 then
      match decNat bs with
      | some (len, bs) =>
        match readN len bs with
        | some (s, rest) => some (.rval (.vbytes s) rest)
        | none => none
      | none => none
    else if t = 6 then
      match decNat bs with
      | some (n, bs) =>
        match decodeStep fuel (.dlist n bs) with
        | some (.rlist vs rest) => some (.rval (.varr vs) rest)
        | _ => none
      | none => none
    else if t = 7 then
      match decNat bs with
      | some (n, bs) =>
        match decodeStep fuel (.dfields n bs) with
        | some (.rfields fs rest) => some (.rval (.vdoc fs) rest)
        | _ => none
      | none => none
    else none
  | fuel + 1, .dlist (n + 1) bs =>
    match decodeStep fuel (.dval bs) with
    | some (.rval v bs1) =>
      match decodeStep fuel (.dlist n bs1) with
      | some (.rlist vs rest) => some (.rlist (v :: vs) rest)
      | _ => none
    | _ => none
  | fuel + 1, .dfields (n + 1) bs =>
    match decNat bs with
    | some (len, bs1) =>
      match readN len bs1 with
      | some (nm, bs2) =>
        match decodeStep fuel (.dval bs2) with
        | some (.rval v bs3) =>
          match decodeStep fuel (.dfields n bs3) with
          | some (.rfields fs rest) => some (.rfields ((nm, v) :: fs) rest)
          | _ => none
        | _ => none
      | none => none
    | none => none

/-- Modelled from the spec: `DecodeDocument` (§4.2): reads the field count
and then the fields, requiring the input to be consumed exactly. -/
def decodeDocument (bs : List Nat) : Option Document :=
  match decNat bs with
  | some (n, rest) =>
    match decodeStep bs.length (.dfields n rest) with
    | some (.rfields fs []) => some fs
    | _ => none
  | none => none

/-! ## Errors (§7) -/

/-- The error taxonomy of §7 that the modelled components surface. -/
inductive DBError where
  | notFound
  | alreadyExists
  | constraintViolation
  | validationError
deriving Repr, DecidableEq

/-! ## Catalog, system table, DDL and DML on it (§4.3, §6, tests
`TestDropTable`/`TestDropIndex`) -/

/-- Modelled from the spec: the catalog state — live user table names and
the indexes defined on them, as (index name, table name) pairs (§4.3). -/
structure Catalog where
  tables : List String
  indexes : List (String × String)
deriving Repr, DecidableEq

/-- The reserved read-only system table enumerating live tables (§6). -/
def reservedTable : String := "__genji_tables"

/-- The rows of the system table: one row (its name) per live table. -/
def systemTableRows (c : Catalog) : List String := c.tables

/-- Modelled from the spec: `DropTable` (§4.3): dropping the reserved system
table is a constraint violation; dropping a live table removes it and
cascades to all its indexes; dropping an absent table is `NotFound` unless
`ifExists` turns it into a no-op. -/
def dropTable (c : Catalog) (name : String) (ifExists : Bool) : Except DBError Catalog :=
  if name = reservedTable then Except.error DBError.constraintViolation
  else if name ∈ c.tables then
    Except.ok
      { tables := c.tables.erase name
        indexes := c.indexes.filter (fun p => p.2 ≠ name) }
  else if ifExists then Except.ok c
  else Except.error DBError.notFound

/-- Modelled from the spec: `DropIndex` (§4.3): removes the named index,
failing with `NotFound` when absent unless `ifExists`. -/
def dropIndex (c : Catalog) (name : String) (ifExists : Bool) : Except DBError Catalog :=
  if c.indexes.any (fun p => p.1 = name) then
    Except.ok { c with indexes := c.indexes.filter (fun p => p.1 ≠ name) }
  else if ifExists then Except.ok c
  else Except.error DBError.notFound

/-- A database: the catalog plus the documents stored per table. -/
structure Database where
  cat : Catalog
  data : List (String × List Document)

/-- The user-issued mutating statements of §6 that target a single table. -/
inductive Stmt where
  | sInsert (table : String) (d : Document)
  | sUpdate (table : String) (field : List Nat) (v : Value)
  | sDelete (table : String)
  | sDrop (table : String) (ifExists : Bool)

/-- The table a mutating statement targets. -/
def stmtTarget : Stmt → String
  | .sInsert t _ => t
  | .sUpdate t _ _ => t
  | .sDelete t => t
  | .sDrop t _ => t

/-- Append a document to a table's stored documents. -/
def dataInsert (data : List (String × List Document)) (t : String) (d : Document) :
    List (String × List Document) :=
  data.map (fun p => if p.1 = t then (p.1, p.2 ++ [d]) else p)

/-- Set a field in every document of a table (an `UPDATE` without `WHERE`). -/
def dataUpdate (data : List (String × List Document)) (t : String)
    (f : List Nat) (v : Value) : List (String × List Document) :=
  data.map (fun p =>
    if p.1 = t then (p.1, p.2.map (fun d => d.map (fun nv => if nv.1 = f then (nv.1, v) else nv)))
    else p)

/-- Remove every document of a table (a `DELETE` without `WHERE`). -/
def dataDelete (data : List (String × List Document)) (t : String) :
    List (String × List Document) :=
  data.map (fun p => if p.1 = t then (p.1, []) else p)

/-- Modelled from the spec: executing a user mutating statement (§4.6, §6,
§7).  Mutating the reserved system table is a constraint violation that
leaves the database unchanged; otherwise the statement runs against the
catalog and data, and a failing statement rolls back, returning the
original database. -/
def execStmt (db : Database) (s : Stmt) : Option DBError × Database :=
  if stmtTarget s = reservedTable then (some DBError.constraintViolation, db)
  else
    match s with
    | .sInsert t d =>
      if t ∈ db.cat.tables then (none, { db with data := dataInsert db.data t d })
      else (some DBError.notFound, db)
    | .sUpdate t f v =>
      if t ∈ db.cat.tables then (none, { db with data := dataUpdate db.data t f v })
      else (some DBError.notFound, db)
    | .sDelete t =>
      if t ∈ db.cat.tables then (none, { db with data := dataDelete db.data t })
      else (some DBError.notFound, db)
    | .sDrop t ifex =>
      match dropTable db.cat t ifex with
      | Except.ok c2 => (none, { cat := c2, data := db.data.filter (fun p => p.1 ≠ t) })
      | Except.error e => (some e, db)

/-! ## Documents as association lists; unique-index table (§4.4, §4.5) -/

/-- First value bound to a field name in a document (spec `GetField`). -/
def docGet : Document → List Nat → Option Value
  | [], _ => none
  | (nm, v) :: fs, f => if nm = f then some v else docGet fs f

/-- Association lookup on byte-keyed pairs (index entries). -/
def lookupBytes : List (List Nat × List Nat) → List Nat → Option (List Nat)
  | [], _ => none
  | (a, b) :: rest, key => if a = key then some b else lookupBytes rest key

/-- A table carrying one unique index: the indexed field path, the rows
(document key → document) and the index entries (encoded indexed value →
document key). -/
structure UTable where
  ifield : List Nat
  rows : List (List Nat × Document)
  idx : List (List Nat × List Nat)

/-- Whether a row with the given document key exists. -/
def rowsHaveKey (rows : List (List Nat × Document)) (k : List Nat) : Bool :=
  rows.any (fun r => decide (r.1 = k))

/-- The encoded indexed value of a document under the table's indexed field
(an absent field indexes as null). -/
def indexedBytes (t : UTable) (d : Document) : List Nat :=
  encodeValue ((docGet d t.ifield).getD Value.vnull)

/-- Modelled from the spec: the unique-index `OnInsert` hook (§4.5): fails
with a constraint violation when the new indexed value already maps to a
different document key, otherwise installs the entry. -/
def onInsertUnique (t : UTable) (k : List Nat) (d : Document) : Except DBError UTable :=
  match lookupBytes t.idx (indexedBytes t d) with
  | some k2 =>
    if k2 = k then Except.ok t else Except.error DBError.constraintViolation
  | none => Except.ok { t with idx := t.idx ++ [(indexedBytes t d, k)] }

/-- Modelled from the spec: the transactional body of `Insert` (§4.4): fail
on a duplicate key, then write the row and update the index. -/
def tableInsertTx (t : UTable) (k : List Nat) (d : Document) : Except DBError UTable :=
  if rowsHaveKey t.rows k then Except.error DBError.constraintViolation
  else onInsertUnique { t with rows := t.rows ++ [(k, d)] } k d

/-- Modelled from the spec: `Insert` under its implicit transaction (§4.4,
§7): on any failure the transaction rolls back and the table (rows and
index both) is exactly the pre-state. -/
def tableInsert (t : UTable) (k : List Nat) (d : Document) : Option DBError × UTable :=
  match tableInsertTx t k d with
  | Except.ok t2 => (none, t2)
  | Except.error e => (some e, t)

/-! ## RecordBuffer (`table` package, pinned by `TestRecordBuffer`) -/

/-- A record to insert: its fields, and `some` primary key bytes when the
record implements the `Pker` interface. -/
structure Rec where
  fields : Document
  pk : Option (List Nat)

/-- Modelled from the spec: the in-memory `RecordBuffer` table (§4.4, pinned
by `TestRecordBuffer`): rows keyed by bytes plus the table's auto-increment
counter. -/
structure RecordBuffer where
  counter : Int
  rows : List (List Nat × Rec)

/-- A fresh `RecordBuffer`: empty, counter at zero. -/
def RecordBuffer.empty : RecordBuffer := ⟨0, []⟩

/-- Modelled from the spec: `RecordBuffer.Insert` (§4.4, `TestRecordBuffer`):
a `Pker` record supplies its own key, used as returned; otherwise the
auto-increment counter is incremented and its int64 encoding is the key. -/
def RecordBuffer.insert (r : RecordBuffer) (rec : Rec) : List Nat × RecordBuffer :=
  match rec.pk with
  | some k => (k, { r with rows := r.rows ++ [(k, rec)] })
  | none =>
    (encodeInt64 (r.counter + 1),
      { counter := r.counter + 1
        rows := r.rows ++ [(encodeInt64 (r.counter + 1), rec)] })

/-! ## Planner and executor (§4.6) -/

/-- An atomic WHERE condition on a single field: equality with a value or an
inclusive range. -/
inductive Cond where
  | ceq (v : Value)
  | crange (lo hi : Value)

/-- Evaluate an atomic condition at a value, using the semantic comparison
`vlt`. -/
def evalCond (c : Cond) (x : Value) : Bool :=
  match c with
  | .ceq v => !vlt x v && !vlt v x
  | .crange lo hi => !vlt x lo && !vlt hi x

/-- A WHERE predicate: a conjunction of atomic conditions on fields. -/
abbrev Pred := List (List Nat × Cond)

/-- Evaluate a predicate at a document; a condition on an absent field is
false. -/
def evalPred (p : Pred) (d : Document) : Bool :=
  p.all (fun fc =>
    match docGet d fc.1 with
    | some x => evalCond fc.2 x
    | none => false)

/-- The index on field `f` derived from the table rows: one entry (indexed
value, document key) per row that has the field (§3 "Index"). -/
def mkIndex (f : List Nat) (rows : List (List Nat × Document)) :
    List (Value × List Nat) :=
  rows.filterMap (fun r => (docGet r.2 f).map (fun v => (v, r.1)))

/-- `Get` of a row by document key. -/
def getRow : List (List Nat × Document) → List Nat → Option Document
  | [], _ => none
  | (k, d) :: rs, key => if k = key then some d else getRow rs key

/-- Modelled from the spec: the full-table-scan plan (§4.6): scan every row
and filter by the whole predicate. -/
def fullScanPlan (p : Pred) (rows : List (List Nat × Document)) : List Document :=
  (rows.map Prod.snd).filter (evalPred p)

/-- Modelled from the spec: the index-scan plan (§4.6): look up in the index
the keys whose indexed value satisfies the chosen atomic condition, fetch
each document by key, and re-filter by the whole predicate. -/
def indexScanPlan (p : Pred) (c : Cond) (rows : List (List Nat × Document))
    (idx : List (Value × List Nat)) : List Document :=
  ((((idx.filter (fun e => evalCond c e.1)).map Prod.snd).filterMap
    (getRow rows)).filter (evalPred p))

/-! ## Storage engine transactions and snapshots (§4.1, §5) -/

/-- The engine's committed key-value store. -/
abbrev Store := List (List Nat × List Nat)

/-- Events of the storage engine's transactional interface: beginning a
read-only transaction, beginning the (single) writer, a write, commit and
rollback (§4.1). -/
inductive Ev where
  | beginRO (tid : Nat)
  | beginRW
  | putRW (k v : List Nat)
  | commitRW
  | rollbackRW

/-- Engine state: the committed store, the snapshot pinned by each live
read-only transaction, and the active writer's working store. -/
structure EngState where
  committed : Store
  snaps : List (Nat × Store)
  writer : Option Store

/-- Lookup in a store (latest binding wins). -/
def storeGet : Store → List Nat → Option (List Nat)
  | [], _ => none
  | (a, b) :: rest, key => if a = key then some b else storeGet rest key

/-- Snapshot pinned by a read-only transaction id. -/
def lookupSnap : List (Nat × Store) → Nat → Option Store
  | [], _ => none
  | (tid, st) :: rest, t => if tid = t then some st else lookupSnap rest t

/-- Modelled from the spec: one engine step (§4.1, §5).  `beginRO` pins the
current committed store as the transaction's snapshot; the writer works on
a private copy that replaces the committed store only at commit; rollback
discards it.  Writers serialize, so a `beginRW` while a writer is active
cannot proceed (it leaves the state unchanged, as the caller blocks). -/
def stepEv (s : EngState) (e : Ev) : EngState :=
  match e with
  | .beginRO tid => { s with snaps := s.snaps ++ [(tid, s.committed)] }
  | .beginRW =>
    match s.writer with
    | some _ => s
    | none => { s with writer := some s.committed }
  | .putRW k v =>
    match s.writer with
    | some st => { s with writer := some ((k, v) :: st) }
    | none => s
  | .commitRW =>
    match s.writer with
    | some st => { committed := st, snaps := s.snaps, writer := none }
    | none => s
  | .rollbackRW => { s with writer := none }

/-- Run a sequence of engine events. -/
def runEv (s : EngState) (evs : List Ev) : EngState := evs.foldl stepEv s

/-- The initial engine state: empty store, no transactions. -/
def initState : EngState := ⟨[], [], none⟩

/-- A read by a read-only transaction: it reads through its pinned
snapshot. -/
def readRO (s : EngState) (tid : Nat) (k : List Nat) : Option (List Nat) :=
  match lookupSnap s.snaps tid with
  | some st => storeGet st k
  | none => none

/-! ## Shell options (`cmd/genji/shell/shell.go`) -/

/-- Options of the shell, from `shell.go`: the engine name and the database
path. -/
structure Options where
  engine : String
  dbpath : String
deriving Repr, DecidableEq

/-- `(*Options).validate` from `shell.go`: an empty engine name defaults to
"memory" when the path is empty and to "bolt" otherwise; any engine other
than "bolt", "badger" or "memory" is rejected. On success the (possibly
updated) options are returned. -/
def Options.validate (o : Options) : Except String Options :=
  let o1 :=
    if o.engine = "" then
      if o.dbpath = "" then { o with engine := "memory" }
      else { o with engine := "bolt" }
    else o
  if o1.engine = "bolt" ∨ o1.engine = "badger" ∨ o1.engine = "memory" then
    Except.ok o1
  else
    Except.error ("unsupported engine \"" ++ o1.engine ++ "\"")

/-- The engine name after the defaulting step of `validate`. -/
def defaultedEngine (o : Options) : String :=
  if o.engine = "" then (if o.dbpath = "" then "memory" else "bolt") else o.engine

/-- Whether an `Except` result is a success. -/
def exceptOk {ε α : Type} : Except ε α → Bool
  | Except.ok _ => true
  | Except.error _ => false

/-! # Theorems -/

/-! ## Byte-order lemmas -/

theorem beBytes_length (w x : Nat) : (beBytes w x).length = w := by
  induction w generalizing x with
  | zero => rfl
  | succ w ih => simp [beBytes, ih]

theorem beVal_beBytes (w x : Nat) (h : x < 256 ^ w) : beVal (beBytes w x) = x := by
  induction w generalizing x with
  | zero =>
    have : x = 0 := by simpa using h
    simp [this, beBytes, beVal]
  | succ w ih =>
    have hm : x % 256 ^ w < 256 ^ w := Nat.mod_lt _ (Nat.pos_pow_of_pos w (by omega))
    simp only [beBytes, beVal, beBytes_length, ih _ hm]
    have h1 := Nat.div_add_mod x (256 ^ w)
    have h2 : x / 256 ^ w * 256 ^ w = 256 ^ w * (x / 256 ^ w) := Nat.mul_comm _ _
    omega

/-- Ordering a pair of naturals by quotient and remainder: `x < y` iff the
pair `(x / c, x % c)` is lexicographically below `(y / c, y % c)`. -/
theorem div_mod_lt_iff (c x y : Nat) (hc : 0 < c) :
    x < y ↔ (x / c < y / c ∨ (x / c = y / c ∧ x % c < y % c)) := by
  constructor
  · intro h
    by_cases hq : x / c < y / c
    · exact Or.inl hq
    · have h2 : x / c ≤ y / c := Nat.div_le_div_right h.le
      have heq : x / c = y / c := le_antisymm h2 (le_of_not_lt hq)
      refine Or.inr ⟨heq, ?_⟩
      have e1 := Nat.div_add_mod x c
      have e2 := Nat.div_add_mod y c
      rw [heq] at e1
      omega
  · intro h
    rcases h with hq | ⟨heq, hr⟩
    · have h1 : x < (y / c) * c := (Nat.div_lt_iff_lt_mul hc).mp hq
      have h2 : (y / c) * c ≤ y := Nat.div_mul_le_self y c
      omega
    · have e1 := Nat.div_add_mod x c
      have e2 := Nat.div_add_mod y c
      rw [heq] at e1
      omega

theorem lexLt_beBytes (w x y : Nat) (hx : x < 256 ^ w) (hy : y < 256 ^ w) :
    lexLt (beBytes w x) (beBytes w y) = true ↔ x < y := by
  induction w generalizing x y with
  | zero =>
    have hx0 : x = 0 := by simpa using hx
    have hy0 : y = 0 := by simpa using hy
    simp [hx0, hy0, beBytes, lexLt]
  | succ w ih =>
    have hc : 0 < 256 ^ w := Nat.pos_pow_of_pos w (by omega)
    have hxm : x % 256 ^ w < 256 ^ w := Nat.mod_lt _ hc
    have hym : y % 256 ^ w < 256 ^ w := Nat.mod_lt _ hc
    simp only [beBytes, lexLt, Bool.or_eq_true, Bool.and_eq_true, decide_eq_true_eq,
      beq_iff_eq]
    rw [ih _ _ hxm hym, div_mod_lt_iff (256 ^ w) x y hc]

theorem lexLt_encodeInt64 (a b : Int) (ha : -(2 ^ 63) ≤ a ∧ a < 2 ^ 63)
    (hb : -(2 ^ 63) ≤ b ∧ b < 2 ^ 63) :
    lexLt (encodeInt64 a) (encodeInt64 b) = true ↔ a < b := by
  unfold encodeInt64
  have hxa : (a + 2 ^ 63).toNat < 256 ^ 8 := by omega
  have hxb : (b + 2 ^ 63).toNat < 256 ^ 8 := by omega
  rw [lexLt_beBytes 8 _ _ hxa hxb]
  omega

/-! ## Varint and fixed-read lemmas -/

theorem decNat_encNatAux (fuel : Nat) : ∀ n rest, n ≤ fuel →
    decNat (encNatAux fuel n ++ rest) = some (n, rest) := by
  induction fuel with
  | zero =>
    intro n rest h
    have hn : n = 0 := by omega
    simp [hn, encNatAux, decNat]
  | succ fuel ih =>
    intro n rest h
    rw [encNatAux]
    split
    · simp [decNat, *]
    · rename_i hn
      rw [List.cons_append]
      have hd : n / 128 ≤ fuel := by
        have := Nat.div_lt_self (by omega : 0 < n) (by omega : 1 < 128)
        omega
      have ih2 := ih (n / 128) rest hd
      simp only [decNat, ih2]
      have hlt : ¬ (n % 128 + 128 < 128) := by omega
      simp only [hlt, if_false]
      have h1 : n / 128 * 128 + (n % 128 + 128 - 128) = n := by omega
      rw [h1]

theorem decNat_encNat (n : Nat) (rest : List Nat) :
    decNat (encNat n ++ rest) = some (n, rest) :=
  decNat_encNatAux n n rest (le_refl n)

theorem encNat_length_pos (n : Nat) : 1 ≤ (encNat n).length := by
  rw [encNat]
  cases n with
  | zero => simp [encNatAux]
  | succ m =>
    rw [encNatAux]
    split <;> simp

theorem readN_append (l rest : List Nat) : readN l.length (l ++ rest) = some (l, rest) := by
  unfold readN
  have hle : l.length ≤ (l ++ rest).length := by simp
  rw [if_pos hle]
  rw [List.take_left, List.drop_left]

/-! ## Unique-index atomicity: claim C3 -/

/-- **C3.** Inserting a document whose indexed value collides with an existing
unique-index entry for a different document key fails with a constraint
violation and leaves the table rows and the index entries exactly as they
were: the failed transaction rolls back with no partial update. -/
theorem C3_unique_violation_atomic (t : UTable) (k : List Nat) (d : Document)
    (k2 : List Nat) (hcoll : lookupBytes t.idx (indexedBytes t d) = some k2)
    (hne : k2 ≠ k) :
    tableInsert t k d = (some DBError.constraintViolation, t) ∧
    (tableInsert t k d).2.rows = t.rows ∧ (tableInsert t k d).2.idx = t.idx := by
  have hgen : ∀ t' : UTable, t'.idx = t.idx → t'.ifield = t.ifield →
      onInsertUnique t' k d = Except.error DBError.constraintViolation := by
    intro t' hi hf
    unfold onInsertUnique indexedBytes
    unfold indexedBytes at hcoll
    rw [hi, hf, hcoll]
    dsimp only
    rw [if_neg hne]
  have htx : tableInsertTx t k d = Except.error DBError.constraintViolation := by
    unfold tableInsertTx
    split
    · rfl
    · exact hgen _ rfl rfl
  have hmain : tableInsert t k d = (some DBError.constraintViolation, t) := by
    unfold tableInsert
    rw [htx]
  exact ⟨hmain, by rw [hmain], by rw [hmain]⟩

/-- Witness for C3: a one-row table whose unique index already maps the value
of field `a = 1` to key `[1]`; inserting a second document with the same
indexed value under key `[2]` fails and changes nothing. -/
theorem C3_unique_violation_atomic_witness :
    tableInsert
        ⟨[97], [([1], [([97], Value.vint 1)])], [(encodeInt64 1, [1])]⟩
        [2] [([97], Value.vint 1)] =
      (some DBError.constraintViolation,
        ⟨[97], [([1], [([97], Value.vint 1)])], [(encodeInt64 1, [1])]⟩) :=
  (C3_unique_violation_atomic _ [2] _ [1] (by rfl) (by decide)).1

/-! ## System-table protection: claim C5 -/

/-- **C5.** A user `INSERT`/`UPDATE`/`DELETE`/`DROP` targeting the reserved
system table fails with a constraint violation and leaves the database
unchanged; the system table enumerates exactly the live tables, one row
(its name) per table. -/
theorem C5_system_table_protected (db : Database) (s : Stmt)
    (h : stmtTarget s = reservedTable) :
    execStmt db s = (some DBError.constraintViolation, db) ∧
    systemTableRows db.cat = db.cat.tables ∧
    (systemTableRows db.cat).length = db.cat.tables.length := by
  refine ⟨?_, rfl, rfl⟩
  unfold execStmt
  rw [if_pos h]

/-- Witness for C5: a `DROP TABLE __genji_tables` against a one-table
database fails with a constraint violation and changes nothing. -/
theorem C5_system_table_protected_witness :
    execStmt ⟨⟨["t1"], []⟩, [("t1", [])]⟩ (Stmt.sDrop reservedTable false) =
      (some DBError.constraintViolation, ⟨⟨["t1"], []⟩, [("t1", [])]⟩) :=
  (C5_system_table_protected ⟨⟨["t1"], []⟩, [("t1", [])]⟩ (Stmt.sDrop reservedTable false)
    (by rfl)).1

/-! ## Float order-preservation -/

theorem magPair_lt (e1 m1 e2 m2 : Nat) (hm1 : m1 < 2 ^ 52)
    (hlex : e1 < e2 ∨ (e1 = e2 ∧ m1 < m2)) :
    (if e1 = 0 then m1 else (2 ^ 52 + m1) * 2 ^ (e1 - 1)) <
      (if e2 = 0 then m2 else (2 ^ 52 + m2) * 2 ^ (e2 - 1)) := by
  rcases hlex with hlt | ⟨heq, hm⟩
  · have he2 : ¬ (e2 = 0) := by omega
    rw [if_neg he2]
    have hpow2 : 0 < (2 : Nat) ^ (e2 - 1) := Nat.pos_pow_of_pos _ (by omega)
    by_cases he1 : e1 = 0
    · rw [if_pos he1]
      have h5 : (2 : Nat) ^ 52 * 2 ^ (e2 - 1) ≤ (2 ^ 52 + m2) * 2 ^ (e2 - 1) :=
        Nat.mul_le_mul_right _ (by omega)
      have h6 : (2 : Nat) ^ 52 ≤ 2 ^ 52 * 2 ^ (e2 - 1) := Nat.le_mul_of_pos_right _ hpow2
      omega
    · rw [if_neg he1]
      have hpow1 : 0 < (2 : Nat) ^ (e1 - 1) := Nat.pos_pow_of_pos _ (by omega)
      have h1 : (2 ^ 52 + m1) * 2 ^ (e1 - 1) < 2 ^ 53 * 2 ^ (e1 - 1) :=
        mul_lt_mul_of_pos_right (by omega) hpow1
      have h2 : (2 : Nat) ^ 53 * 2 ^ (e1 - 1) = 2 ^ (53 + (e1 - 1)) := (pow_add 2 53 (e1 - 1)).symm
      have h3 : (2 : Nat) ^ (53 + (e1 - 1)) ≤ 2 ^ (52 + (e2 - 1)) :=
        Nat.pow_le_pow_right (by omega) (by omega)
      have h4 : (2 : Nat) ^ (52 + (e2 - 1)) = 2 ^ 52 * 2 ^ (e2 - 1) := pow_add 2 52 (e2 - 1)
      have h5 : (2 : Nat) ^ 52 * 2 ^ (e2 - 1) ≤ (2 ^ 52 + m2) * 2 ^ (e2 - 1) :=
        Nat.mul_le_mul_right _ (by omega)
      omega
  · subst heq
    by_cases he1 : e1 = 0
    · rw [if_pos he1, if_pos he1]
      exact hm
    · rw [if_neg he1, if_neg he1]
      exact mul_lt_mul_of_pos_right (by omega) (Nat.pos_pow_of_pos _ (by omega))

theorem floatMagN_congr (b1 b2 : Nat) (h : fRest b1 = fRest b2) :
    floatMagN b1 = floatMagN b2 := by
  unfold floatMagN fExp fMan
  rw [h]

theorem floatMagN_strictMono (b1 b2 : Nat) (h : fRest b1 < fRest b2) :
    floatMagN b1 < floatMagN b2 := by
  unfold floatMagN fExp fMan
  apply magPair_lt
  · exact Nat.mod_lt _ (by norm_num)
  · exact (div_mod_lt_iff (2 ^ 52) (fRest b1) (fRest b2) (by norm_num)).mp h

theorem floatMagN_lt_iff (b1 b2 : Nat) :
    floatMagN b1 < floatMagN b2 ↔ fRest b1 < fRest b2 := by
  constructor
  · intro h
    by_contra hc
    push_neg at hc
    rcases Nat.lt_or_ge (fRest b2) (fRest b1) with hlt | hge
    · exact absurd h (not_lt.mpr (floatMagN_strictMono _ _ hlt).le)
    · have he : fRest b1 = fRest b2 := by omega
      rw [floatMagN_congr _ _ he] at h
      exact lt_irrefl _ h
  · exact floatMagN_strictMono _ _

theorem floatMag_eq (b : Nat) :
    floatMag b = (floatMagN b : ℚ) * (2 : ℚ) ^ (-1074 : ℤ) := by
  unfold floatMag floatMagN
  by_cases he : fExp b = 0
  · rw [if_pos he, if_pos he]
  · rw [if_neg he, if_neg he]
    have he1 : 1 ≤ fExp b := Nat.one_le_iff_ne_zero.mpr he
    have hexp : (2 : ℚ) ^ ((fExp b : ℤ) - 1075) =
        (2 : ℚ) ^ ((fExp b - 1 : ℕ) : ℤ) * (2 : ℚ) ^ (-1074 : ℤ) := by
      rw [← zpow_add₀ (by norm_num : (2 : ℚ) ≠ 0)]
      congr 1
      omega
    rw [hexp, zpow_natCast]
    push_cast
    ring

theorem floatMag_nonneg (b : Nat) : 0 ≤ floatMag b := by
  rw [floatMag_eq]
  positivity

theorem floatMag_pos (b : Nat) (h : fRest b ≠ 0) : 0 < floatMag b := by
  rw [floatMag_eq]
  have hN : 0 < floatMagN b := by
    unfold floatMagN
    by_cases he : fExp b = 0
    · rw [if_pos he]
      unfold fExp at he
      unfold fMan
      omega
    · rw [if_neg he]
      have hp : 0 < (2 : Nat) ^ (fExp b - 1) := Nat.pos_pow_of_pos _ (by omega)
      have hb : 0 < 2 ^ 52 + fMan b := by positivity
      exact Nat.mul_pos hb hp
  have hQ : (0 : ℚ) < (floatMagN b : ℚ) := by exact_mod_cast hN
  positivity

theorem floatMag_lt_iff (b1 b2 : Nat) :
    floatMag b1 < floatMag b2 ↔ fRest b1 < fRest b2 := by
  rw [floatMag_eq, floatMag_eq]
  have hp : (0 : ℚ) < (2 : ℚ) ^ (-1074 : ℤ) := by positivity
  rw [mul_lt_mul_right hp, Nat.cast_lt]
  exact floatMagN_lt_iff b1 b2

theorem floatEnc_lt (b : Nat) (h : b < 2 ^ 64) : floatEnc b < 2 ^ 64 := by
  unfold floatEnc fSign
  split <;> omega

/-- The order-preservation of the float transform: over 64-bit patterns
other than negative zero (on the left), the semantic order of the float
values matches the unsigned order of the transformed patterns. -/
theorem floatVal_lt_iff (b1 b2 : Nat) (h1 : b1 < 2 ^ 64) (h2 : b2 < 2 ^ 64)
    (hz : b1 ≠ 2 ^ 63) :
    floatVal b1 < floatVal b2 ↔ floatEnc b1 < floatEnc b2 := by
  have hs1 : fSign b1 = 0 ∨ fSign b1 = 1 := by unfold fSign; omega
  have hs2 : fSign b2 = 0 ∨ fSign b2 = 1 := by unfold fSign; omega
  unfold floatVal floatEnc
  rcases hs1 with hs1 | hs1 <;> rcases hs2 with hs2 | hs2
  · rw [if_pos hs1, if_pos hs2, if_pos hs1, if_pos hs2, floatMag_lt_iff]
    unfold fSign at hs1 hs2
    unfold fRest
    omega
  · have hns2 : ¬ (fSign b2 = 0) := by omega
    rw [if_pos hs1, if_neg hns2, if_pos hs1, if_neg hns2]
    have hnn1 := floatMag_nonneg b1
    have hnn2 := floatMag_nonneg b2
    constructor
    · intro hlt
      linarith
    · intro hlt
      exfalso
      unfold fSign at hs2
      omega
  · have hns1 : ¬ (fSign b1 = 0) := by omega
    rw [if_neg hns1, if_pos hs2, if_neg hns1, if_pos hs2]
    have hr1pos : fRest b1 ≠ 0 := by
      unfold fSign at hs1
      unfold fRest
      omega
    have hpos := floatMag_pos b1 hr1pos
    have hnn := floatMag_nonneg b2
    constructor
    · intro _
      unfold fSign at hs1 hs2
      omega
    · intro _
      linarith
  · have hns1 : ¬ (fSign b1 = 0) := by omega
    have hns2 : ¬ (fSign b2 = 0) := by omega
    rw [if_neg hns1, if_neg hns2, if_neg hns1, if_neg hns2, neg_lt_neg_iff,
      floatMag_lt_iff]
    unfold fSign at hs1 hs2
    unfold fRest
    omega

/-! ## Order-preservation of the key codec: claim C1 -/

/-- **C1.** For any two indexable values of the same type — including
negative, positive and fractional numbers — the semantic order `vlt`
coincides with the byte-lexicographic order of their `encodeValue`
encodings. -/
theorem C1_encode_order_preserving (a b : Value) (hty : typeRank a = typeRank b)
    (ha : isIndexable a = true) (hb : isIndexable b = true) :
    (vlt a b = true ↔ lexLt (encodeValue a) (encodeValue b) = true) := by
  have h256 : (256 : Nat) ^ 8 = 2 ^ 64 := by norm_num
  cases a <;> cases b <;>
    first
      | (exfalso; revert hty; simp [typeRank]; done)
      | (exfalso; revert ha; simp [isIndexable]; done)
      | skip
  -- null / null
  · decide
  -- bool / bool
  · rename_i x y
    cases x <;> cases y <;> decide
  -- int / int
  · rename_i n m
    simp only [isIndexable, Bool.and_eq_true, decide_eq_true_eq] at ha hb
    simp only [vlt, encodeValue, decide_eq_true_eq]
    exact (lexLt_encodeInt64 n m ha hb).symm
  -- float / float
  · rename_i x y
    simp only [isIndexable, floatFinite, Bool.and_eq_true, decide_eq_true_eq] at ha hb
    have hx64 : x < 2 ^ 64 := ha.1.1
    have hy64 : y < 2 ^ 64 := hb.1.1
    have hex : floatEnc x < 256 ^ 8 := by rw [h256]; exact floatEnc_lt x hx64
    have hey : floatEnc y < 256 ^ 8 := by rw [h256]; exact floatEnc_lt y hy64
    simp only [vlt, encodeValue, decide_eq_true_eq]
    rw [lexLt_beBytes 8 _ _ hex hey]
    exact floatVal_lt_iff x y hx64 hy64 ha.2
  -- string / string
  · exact Iff.rfl
  -- bytes / bytes
  · exact Iff.rfl

/-- Witness for C1 at concrete inputs: the negative integer −5 sorts before
3, and their encodings sort the same way. -/
theorem C1_encode_order_preserving_witness :
    vlt (Value.vint (-5)) (Value.vint 3) = true ↔
      lexLt (encodeValue (Value.vint (-5))) (encodeValue (Value.vint 3)) = true :=
  C1_encode_order_preserving (Value.vint (-5)) (Value.vint 3)
    (by decide) (by decide) (by decide)

/-! ## Document codec round trip: claim C2 -/

theorem encVal_length_pos (v : Value) : 1 ≤ (encVal v).length := by
  cases v <;> simp [encVal]

theorem costV_pos (v : Value) : 1 ≤ costV v := by
  cases v <;> (simp only [costV]; omega)

mutual

theorem costV_le (v : Value) : costV v ≤ (encVal v).length := by
  cases v with
  | vnull => simp [costV, encVal]
  | vbool b => simp [costV, encVal]
  | vint n => simp [costV, encVal]
  | vfloat bits => simp [costV, encVal]
  | vstring s => simp [costV, encVal]
  | vbytes bs => simp [costV, encVal]
  | varr vs =>
    have h1 := costL_le vs
    have h2 := encNat_length_pos vs.length
    simp only [costV, encVal, List.length_cons, List.length_append]
    omega
  | vdoc fs =>
    have h1 := costF_le fs
    have h2 := encNat_length_pos fs.length
    simp only [costV, encVal, List.length_cons, List.length_append]
    omega

theorem costL_le (vs : List Value) : costL vs ≤ (encList vs).length + 1 := by
  cases vs with
  | nil => simp [costL, encList]
  | cons v vs =>
    have h1 := costV_le v
    have h2 := costL_le vs
    have h3 := encVal_length_pos v
    simp only [costL, encList, List.length_append]
    omega

theorem costF_le (fs : List (List Nat × Value)) : costF fs ≤ (encFields fs).length + 1 := by
  cases fs with
  | nil => simp [costF, encFields]
  | cons nv fs =>
    obtain ⟨nm, v⟩ := nv
    have h1 := costV_le v
    have h2 := costF_le fs
    have h3 := encVal_length_pos v
    have h4 := encNat_length_pos nm.length
    simp only [costF, encFields, List.length_append]
    omega

end

theorem readN_of_length (k : Nat) (l rest : List Nat) (hk : l.length = k) :
    readN k (l ++ rest) = some (l, rest) := by
  rw [← hk]
  exact readN_append l rest

mutual

theorem decVal_enc (v : Value) : ∀ (fuel : Nat) (rest : List Nat),
    costV v ≤ fuel → wfV v = true →
    decodeStep fuel (DecTask.dval (encVal v ++ rest)) = some (DecRes.rval v rest) := by
  intro fuel rest hc hw
  cases fuel with
  | zero =>
    have := costV_pos v
    omega
  | succ f =>
    cases v with
    | vnull => simp [encVal, decodeStep]
    | vbool b => cases b <;> simp [encVal, decodeStep]
    | vint n =>
      simp only [wfV, Bool.and_eq_true, decide_eq_true_eq] at hw
      have hrange : (n + 2 ^ 63).toNat < 256 ^ 8 := by omega
      have hread : readN 8 (encodeInt64 n ++ rest) = some (encodeInt64 n, rest) :=
        readN_of_length 8 _ rest (by simp [encodeInt64, beBytes_length])
      have hval : beVal (encodeInt64 n) = (n + 2 ^ 63).toNat :=
        beVal_beBytes 8 _ hrange
      simp [encVal, decodeStep, hread, hval]
      omega
    | vfloat bits =>
      simp only [wfV, decide_eq_true_eq] at hw
      have hrange : bits < 256 ^ 8 := by omega
      have hread : readN 8 (beBytes 8 bits ++ rest) = some (beBytes 8 bits, rest) :=
        readN_of_length 8 _ rest (beBytes_length 8 bits)
      have hval : beVal (beBytes 8 bits) = bits := beVal_beBytes 8 bits hrange
      simp [encVal, decodeStep, hread, hval]
    | vstring s =>
      have hdec : decNat (encNat s.length ++ (s ++ rest)) = some (s.length, s ++ rest) :=
        decNat_encNat s.length (s ++ rest)
      simp [encVal, decodeStep, hdec, readN_append]
    | vbytes bs =>
      have hdec : decNat (encNat bs.length ++ (bs ++ rest)) = some (bs.length, bs ++ rest) :=
        decNat_encNat bs.length (bs ++ rest)
      simp [encVal, decodeStep, hdec, readN_append]
    | varr vs =>
      simp only [costV] at hc
      simp only [wfV] at hw
      have hdec : decNat (encNat vs.length ++ (encList vs ++ rest)) =
          some (vs.length, encList vs ++ rest) :=
        decNat_encNat vs.length (encList vs ++ rest)
      have hrec := decList_enc vs f rest (by omega) hw
      simp [encVal, decodeStep, hdec, hrec]
    | vdoc fs =>
      simp only [costV] at hc
      simp only [wfV] at hw
      have hdec : decNat (encNat fs.length ++ (encFields fs ++ rest)) =
          some (fs.length, encFields fs ++ rest) :=
        decNat_encNat fs.length (encFields fs ++ rest)
      have hrec := decFields_enc fs f rest (by omega) hw
      simp [encVal, decodeStep, hdec, hrec]

theorem decList_enc (vs : List Value) : ∀ (fuel : Nat) (rest : List Nat),
    costL vs ≤ fuel → wfL vs = true →
    decodeStep fuel (DecTask.dlist vs.length (encList vs ++ rest)) =
      some (DecRes.rlist vs rest) := by
  intro fuel rest hc hw
  cases vs with
  | nil => simp [encList, decodeStep]
  | cons v vs =>
    simp only [costL] at hc
    simp only [wfL, Bool.and_eq_true] at hw
    cases fuel with
    | zero => omega
    | succ f =>
      have hv := decVal_enc v f (encList vs ++ rest) (by omega) hw.1
      have hvs := decList_enc vs f rest (by omega) hw.2
      simp only [encList, List.length_cons, List.append_assoc]
      simp [decodeStep, hv, hvs]

theorem decFields_enc (fs : List (List Nat × Value)) : ∀ (fuel : Nat) (rest : List Nat),
    costF fs ≤ fuel → wfF fs = true →
    decodeStep fuel (DecTask.dfields fs.length (encFields fs ++ rest)) =
      some (DecRes.rfields fs rest) := by
  intro fuel rest hc hw
  cases fs with
  | nil => simp [encFields, decodeStep]
  | cons nv fs =>
    obtain ⟨nm, v⟩ := nv
    simp only [costF] at hc
    simp only [wfF, Bool.and_eq_true] at hw
    cases fuel with
    | zero => omega
    | succ f =>
      have hdec : decNat (encNat nm.length ++ (nm ++ (encVal v ++ (encFields fs ++ rest)))) =
          some (nm.length, nm ++ (encVal v ++ (encFields fs ++ rest))) :=
        decNat_encNat nm.length _
      have hnm : readN nm.length (nm ++ (encVal v ++ (encFields fs ++ rest))) =
          some (nm, encVal v ++ (encFields fs ++ rest)) :=
        readN_append nm _
      have hv := decVal_enc v f (encFields fs ++ rest) (by omega) hw.1
      have hfs := decFields_enc fs f rest (by omega) hw.2
      simp only [encFields, List.length_cons, List.append_assoc]
      simp [decodeStep, hdec, hnm, hv, hfs]

end

/-- **C2.** Decoding an encoded document returns exactly the original
document — the same fields bound to the same values in the same (insertion)
order, since documents are ordered field lists and list equality preserves
order. -/
theorem C2_document_round_trip (d : Document) (h : wfF d = true) :
    decodeDocument (encodeDocument d) = some d := by
  unfold decodeDocument encodeDocument
  rw [decNat_encNat]
  have hfuel : costF d ≤ (encNat d.length ++ encFields d).length := by
    have h1 := costF_le d
    have h2 := encNat_length_pos d.length
    simp only [List.length_append]
    omega
  have hdec := decFields_enc d (encNat d.length ++ encFields d).length [] hfuel h
  rw [List.append_nil] at hdec
  dsimp only
  rw [hdec]

/-- Witness for C2: a concrete two-field document, with a nested document as
the second field's value, decodes back to itself. -/
theorem C2_document_round_trip_witness :
    decodeDocument (encodeDocument
        [([97], Value.vint 5), ([98], Value.vdoc [([99], Value.vstring [104, 105])])]) =
      some [([97], Value.vint 5), ([98], Value.vdoc [([99], Value.vstring [104, 105])])] :=
  C2_document_round_trip
    [([97], Value.vint 5), ([98], Value.vdoc [([99], Value.vstring [104, 105])])]
    (by rfl)

/-! ## Catalog DDL: claim C4 -/

theorem nodupFst_eq {α β : Type} (l : List (α × β))
    (hnd : (l.map Prod.fst).Nodup) (i : α) (x y : β)
    (hx : (i, x) ∈ l) (hy : (i, y) ∈ l) : x = y := by
  induction l with
  | nil => cases hx
  | cons r rs ih =>
    obtain ⟨a, b⟩ := r
    rw [List.map_cons, List.nodup_cons] at hnd
    rcases List.mem_cons.mp hx with hx1 | hx2 <;>
      rcases List.mem_cons.mp hy with hy1 | hy2
    · cases hx1; cases hy1; rfl
    · cases hx1
      exact absurd (List.mem_map.mpr ⟨(i, y), hy2, rfl⟩) hnd.1
    · cases hy1
      exact absurd (List.mem_map.mpr ⟨(i, x), hx2, rfl⟩) hnd.1
    · exact ih hnd.2 hx2 hy2

/-- **C4.** Dropping a live user table succeeds, removes it from the system
table, and drops every index defined on it (a later `DROP INDEX` on any of
them fails with `NotFound`); once the table is gone, `DROP TABLE` on it
fails with `NotFound` while `DROP TABLE IF EXISTS` is a successful no-op;
all other tables and their indexes are untouched. -/
theorem C4_drop_table (c : Catalog) (t : String) (ht : t ∈ c.tables)
    (hres : t ≠ reservedTable) (hnd : c.tables.Nodup)
    (hidxnd : (c.indexes.map Prod.fst).Nodup) :
    ∃ c2, dropTable c t false = Except.ok c2 ∧
      t ∉ systemTableRows c2 ∧
      (∀ i tb, (i, tb) ∈ c.indexes → tb = t →
        dropIndex c2 i false = Except.error DBError.notFound) ∧
      dropTable c2 t false = Except.error DBError.notFound ∧
      dropTable c2 t true = Except.ok c2 ∧
      (∀ u, u ≠ t → (u ∈ c2.tables ↔ u ∈ c.tables)) ∧
      (∀ i tb, tb ≠ t → ((i, tb) ∈ c2.indexes ↔ (i, tb) ∈ c.indexes)) := by
  refine ⟨⟨c.tables.erase t, c.indexes.filter (fun p => p.2 ≠ t)⟩, ?_, ?_, ?_, ?_, ?_, ?_, ?_⟩
  · unfold dropTable
    rw [if_neg hres, if_pos ht]
  · intro hmem
    have := (List.Nodup.mem_erase_iff hnd).mp hmem
    exact this.1 rfl
  · intro i tb hmem htb
    have hany : ¬ ((c.indexes.filter (fun p => p.2 ≠ t)).any (fun p => decide (p.1 = i)) = true) := by
      rw [List.any_eq_true]
      rintro ⟨p, hp, hpi⟩
      rw [List.mem_filter] at hp
      rw [decide_eq_true_eq] at hpi
      have hpt : p.2 ≠ t := by simpa using hp.2
      have : p.2 = tb := by
        have hpmem : (i, p.2) ∈ c.indexes := by
          rw [← hpi]
          exact hp.1
        exact nodupFst_eq c.indexes hidxnd i p.2 tb hpmem hmem
      rw [htb] at this
      exact hpt this
    unfold dropIndex
    rw [if_neg hany, if_neg (by simp)]
  · unfold dropTable
    rw [if_neg hres]
    have hnmem : ¬ (t ∈ c.tables.erase t) := by
      intro hmem
      exact ((List.Nodup.mem_erase_iff hnd).mp hmem).1 rfl
    rw [if_neg hnmem, if_neg (by simp)]
  · unfold dropTable
    rw [if_neg hres]
    have hnmem : ¬ (t ∈ c.tables.erase t) := by
      intro hmem
      exact ((List.Nodup.mem_erase_iff hnd).mp hmem).1 rfl
    rw [if_neg hnmem, if_pos (by simp)]
  · intro u hu
    exact List.mem_erase_of_ne hu
  · intro i tb htb
    rw [List.mem_filter]
    simp [htb]

/-- Witness for C4: drop table "t1" from a catalog holding tables "t1", "t2"
and one index on each. -/
theorem C4_drop_table_witness :
    ∃ c2, dropTable ⟨["t1", "t2"], [("i1", "t1"), ("i2", "t2")]⟩ "t1" false = Except.ok c2 ∧
      "t1" ∉ systemTableRows c2 ∧
      (∀ i tb, (i, tb) ∈ [("i1", "t1"), ("i2", "t2")] → tb = "t1" →
        dropIndex c2 i false = Except.error DBError.notFound) ∧
      dropTable c2 "t1" false = Except.error DBError.notFound ∧
      dropTable c2 "t1" true = Except.ok c2 ∧
      (∀ u, u ≠ "t1" → (u ∈ c2.tables ↔ u ∈ ["t1", "t2"])) ∧
      (∀ i tb, tb ≠ "t1" → ((i, tb) ∈ c2.indexes ↔ (i, tb) ∈ [("i1", "t1"), ("i2", "t2")])) :=
  C4_drop_table ⟨["t1", "t2"], [("i1", "t1"), ("i2", "t2")]⟩ "t1"
    (by decide) (by decide) (by decide) (by decide)

/-! ## Planner equivalence: claim C8 -/

theorem getRow_mem (rows : List (List Nat × Document)) (k : List Nat) (d : Document)
    (h : getRow rows k = some d) : (k, d) ∈ rows := by
  induction rows with
  | nil => cases h
  | cons r rs ih =>
    obtain ⟨k', d'⟩ := r
    unfold getRow at h
    split at h
    · rename_i he
      cases h
      rw [he]
      exact List.mem_cons_self _ _
    · exact List.mem_cons_of_mem _ (ih h)

theorem mem_getRow (rows : List (List Nat × Document)) (k : List Nat) (d : Document)
    (hnd : (rows.map Prod.fst).Nodup) (h : (k, d) ∈ rows) :
    getRow rows k = some d := by
  induction rows with
  | nil => cases h
  | cons r rs ih =>
    obtain ⟨k', d'⟩ := r
    rw [List.map_cons, List.nodup_cons] at hnd
    rcases List.mem_cons.mp h with heq | hmem
    · cases heq
      simp [getRow]
    · have hk : ¬ (k' = k) := by
        intro he
        subst he
        exact hnd.1 (List.mem_map.mpr ⟨(k', d), hmem, rfl⟩)
      unfold getRow
      rw [if_neg hk]
      exact ih hnd.2 hmem

theorem evalPred_atom (p : Pred) (d : Document) (f : List Nat) (c : Cond)
    (hp : evalPred p d = true) (hm : (f, c) ∈ p) :
    ∃ x, docGet d f = some x ∧ evalCond c x = true := by
  unfold evalPred at hp
  rw [List.all_eq_true] at hp
  have hat := hp (f, c) hm
  rcases hg : docGet d f with _ | x
  · rw [hg] at hat
    cases hat
  · rw [hg] at hat
    exact ⟨x, rfl, hat⟩

/-- **C8.** For a WHERE predicate containing an atomic condition on an
indexed field, the documents produced by the index-scan plan (index lookup,
per-key fetch, then a filter re-evaluating the whole predicate) are exactly
the documents produced by a full table scan filtered by the same predicate,
over the same table state. -/
theorem C8_plan_equivalence (p : Pred) (f : List Nat) (c : Cond)
    (rows : List (List Nat × Document)) (hm : (f, c) ∈ p)
    (hnd : (rows.map Prod.fst).Nodup) (d : Document) :
    d ∈ indexScanPlan p c rows (mkIndex f rows) ↔ d ∈ fullScanPlan p rows := by
  unfold indexScanPlan fullScanPlan
  constructor
  · intro hd
    rw [List.mem_filter] at hd
    obtain ⟨hd1, hpred⟩ := hd
    rw [List.mem_filterMap] at hd1
    obtain ⟨k, hk, hget⟩ := hd1
    have hrow := getRow_mem rows k d hget
    rw [List.mem_filter]
    exact ⟨List.mem_map.mpr ⟨(k, d), hrow, rfl⟩, hpred⟩
  · intro hd
    rw [List.mem_filter] at hd
    obtain ⟨hd1, hpred⟩ := hd
    obtain ⟨⟨k, d0⟩, hrow, hsnd⟩ := List.mem_map.mp hd1
    cases hsnd
    obtain ⟨x, hgx, hcx⟩ := evalPred_atom p d0 f c hpred hm
    rw [List.mem_filter]
    refine ⟨?_, hpred⟩
    rw [List.mem_filterMap]
    refine ⟨k, ?_, mem_getRow rows k d0 hnd hrow⟩
    rw [List.mem_map]
    refine ⟨(x, k), ?_, rfl⟩
    rw [List.mem_filter]
    constructor
    · unfold mkIndex
      rw [List.mem_filterMap]
      refine ⟨(k, d0), hrow, ?_⟩
      rw [hgx]
      rfl
    · simpa using hcx

/-- Witness for C8: a two-row table with an index on field `[10]` and the
predicate "field `[10]` equals 1"; both plans return the matching row. -/
theorem C8_plan_equivalence_witness :
    [([10], Value.vint 1)] ∈
        indexScanPlan [([10], Cond.ceq (Value.vint 1))] (Cond.ceq (Value.vint 1))
          [([1], [([10], Value.vint 1)]), ([2], [([10], Value.vint 2)])]
          (mkIndex [10] [([1], [([10], Value.vint 1)]), ([2], [([10], Value.vint 2)])]) ↔
      [([10], Value.vint 1)] ∈
        fullScanPlan [([10], Cond.ceq (Value.vint 1))]
          [([1], [([10], Value.vint 1)]), ([2], [([10], Value.vint 2)])] :=
  C8_plan_equivalence [([10], Cond.ceq (Value.vint 1))] [10] (Cond.ceq (Value.vint 1))
    [([1], [([10], Value.vint 1)]), ([2], [([10], Value.vint 2)])]
    (List.mem_cons_self _ _) (by decide) [([10], Value.vint 1)]

/-! ## Snapshot isolation: claim C9 -/

theorem runEv_append (s : EngState) (l1 l2 : List Ev) :
    runEv s (l1 ++ l2) = runEv (runEv s l1) l2 := by
  unfold runEv
  exact List.foldl_append _ _ _ _

theorem lookupSnap_append_left (a b : List (Nat × Store)) (tid : Nat) (st : Store)
    (h : lookupSnap a tid = some st) : lookupSnap (a ++ b) tid = some st := by
  induction a with
  | nil => cases h
  | cons r rest ih =>
    obtain ⟨t', s'⟩ := r
    rw [List.cons_append]
    simp only [lookupSnap] at h ⊢
    split at h
    · rename_i hcond
      rw [if_pos hcond]
      exact h
    · rename_i hcond
      rw [if_neg hcond]
      exact ih h

theorem lookupSnap_append_none (a : List (Nat × Store)) (tid : Nat) (st : Store)
    (h : lookupSnap a tid = none) : lookupSnap (a ++ [(tid, st)]) tid = some st := by
  induction a with
  | nil => simp [lookupSnap]
  | cons r rest ih =>
    obtain ⟨t', s'⟩ := r
    rw [List.cons_append]
    simp only [lookupSnap] at h ⊢
    split at h
    · cases h
    · rename_i hcond
      rw [if_neg hcond]
      exact ih h

theorem lookupSnap_stepEv (s : EngState) (e : Ev) (tid : Nat) (st : Store)
    (h : lookupSnap s.snaps tid = some st) :
    lookupSnap (stepEv s e).snaps tid = some st := by
  cases e with
  | beginRO tid' => exact lookupSnap_append_left _ _ _ _ h
  | beginRW => cases hw : s.writer <;> simp only [stepEv, hw] <;> exact h
  | putRW k v => cases hw : s.writer <;> simp only [stepEv, hw] <;> exact h
  | commitRW => cases hw : s.writer <;> simp only [stepEv, hw] <;> exact h
  | rollbackRW => exact h

theorem lookupSnap_runEv (evs : List Ev) : ∀ (s : EngState) (tid : Nat) (st : Store),
    lookupSnap s.snaps tid = some st → lookupSnap (runEv s evs).snaps tid = some st := by
  induction evs with
  | nil => intro s tid st h; exact h
  | cons e evs ih =>
    intro s tid st h
    exact ih (stepEv s e) tid st (lookupSnap_stepEv s e tid st h)

/-- **C9.** A read-only transaction begun before any later engine activity —
in particular before a concurrent writer's commit — reads exactly through
the committed store pinned at its start: a key absent then is never
observed, even after the writer's commit completes. -/
theorem C9_snapshot_isolation (pre mid : List Ev) (tid : Nat) (k : List Nat)
    (hfresh : lookupSnap (runEv initState pre).snaps tid = none) :
    readRO (runEv initState (pre ++ Ev.beginRO tid :: mid)) tid k =
      storeGet (runEv initState pre).committed k ∧
    (storeGet (runEv initState pre).committed k = none →
      readRO (runEv initState (pre ++ Ev.beginRO tid :: mid)) tid k = none) := by
  have h1 : runEv initState (pre ++ Ev.beginRO tid :: mid) =
      runEv (stepEv (runEv initState pre) (Ev.beginRO tid)) mid := by
    rw [runEv_append]
    rfl
  have hsnap : lookupSnap (stepEv (runEv initState pre) (Ev.beginRO tid)).snaps tid =
      some (runEv initState pre).committed :=
    lookupSnap_append_none _ _ _ hfresh
  have hpin := lookupSnap_runEv mid _ tid (runEv initState pre).committed hsnap
  have hread : readRO (runEv initState (pre ++ Ev.beginRO tid :: mid)) tid k =
      storeGet (runEv initState pre).committed k := by
    rw [h1]
    unfold readRO
    rw [hpin]
  exact ⟨hread, fun hn => by rw [hread, hn]⟩

/-- Witness for C9: transaction 0 begins on the empty store; a writer then
begins, writes key `[1]` and commits; the read-only transaction still does
not see key `[1]`. -/
theorem C9_snapshot_isolation_witness :
    readRO (runEv initState ([] ++ Ev.beginRO 0 ::
        [Ev.beginRW, Ev.putRW [1] [2], Ev.commitRW])) 0 [1] =
      storeGet (runEv initState []).committed [1] ∧
    (storeGet (runEv initState []).committed [1] = none →
      readRO (runEv initState ([] ++ Ev.beginRO 0 ::
        [Ev.beginRW, Ev.putRW [1] [2], Ev.commitRW])) 0 [1] = none) :=
  C9_snapshot_isolation [] [Ev.beginRW, Ev.putRW [1] [2], Ev.commitRW] 0 [1] rfl

/-! ## RecordBuffer insertion: claims C6 and C7 -/

/-- **C6.** Inserting a record that supplies no primary key returns the int64
encoding of the auto-increment counter after incrementing it by one, and on
a fresh buffer the first two such inserts return the encodings of 1 and 2
(as `TestRecordBuffer` requires). -/
theorem C6_autoincrement_key :
    (∀ (rb : RecordBuffer) (rec : Rec), rec.pk = none →
      (rb.insert rec).1 = encodeInt64 (rb.counter + 1) ∧
      (rb.insert rec).2.counter = rb.counter + 1) ∧
    (∀ r1 r2 : Rec, r1.pk = none → r2.pk = none →
      (RecordBuffer.empty.insert r1).1 = encodeInt64 1 ∧
      ((RecordBuffer.empty.insert r1).2.insert r2).1 = encodeInt64 2) := by
  have hgen : ∀ (rb : RecordBuffer) (rec : Rec), rec.pk = none →
      (rb.insert rec).1 = encodeInt64 (rb.counter + 1) ∧
      (rb.insert rec).2.counter = rb.counter + 1 := by
    intro rb rec h
    unfold RecordBuffer.insert
    rw [h]
    exact ⟨rfl, rfl⟩
  refine ⟨hgen, ?_⟩
  intro r1 r2 h1 h2
  have e1 := hgen RecordBuffer.empty r1 h1
  have e2 := hgen (RecordBuffer.empty.insert r1).2 r2 h2
  refine ⟨e1.1, ?_⟩
  rw [e2.1, e1.2]
  rfl

/-- Witness for C6: two keyless inserts into a fresh buffer return the int64
encodings of 1 and 2. -/
theorem C6_autoincrement_key_witness :
    (RecordBuffer.empty.insert ⟨[], none⟩).1 = encodeInt64 1 ∧
    ((RecordBuffer.empty.insert ⟨[], none⟩).2.insert ⟨[], none⟩).1 = encodeInt64 2 :=
  C6_autoincrement_key.2 ⟨[], none⟩ ⟨[], none⟩ rfl rfl

/-- **C7.** Inserting a record that implements `Pker` returns exactly the
primary-key bytes the record supplies, and the auto-increment counter is
untouched. -/
theorem C7_pker_key (rb : RecordBuffer) (rec : Rec) (k : List Nat)
    (h : rec.pk = some k) :
    (rb.insert rec).1 = k ∧ (rb.insert rec).2.counter = rb.counter := by
  unfold RecordBuffer.insert
  rw [h]
  exact ⟨rfl, rfl⟩

/-- Witness for C7: a record carrying primary key `encodeInt64 2` is inserted
under exactly that key, as in the `Pker support` subtest. -/
theorem C7_pker_key_witness :
    (RecordBuffer.empty.insert ⟨[], some (encodeInt64 2)⟩).1 = encodeInt64 2 ∧
    (RecordBuffer.empty.insert ⟨[], some (encodeInt64 2)⟩).2.counter =
      RecordBuffer.empty.counter :=
  C7_pker_key RecordBuffer.empty ⟨[], some (encodeInt64 2)⟩ (encodeInt64 2) rfl

/-! ## Shell options: claim C10 -/

/-- **C10.** `validate` defaults an empty engine to "memory" (empty path) or
"bolt" (non-empty path), succeeds exactly when the resulting engine is one of
"bolt", "badger", "memory" — in which case it returns the options with the
defaulted engine and untouched path — and otherwise reports an
unsupported-engine error naming that engine. -/
theorem C10_options_validate (o : Options) :
    (exceptOk o.validate = true ↔
      (defaultedEngine o = "bolt" ∨ defaultedEngine o = "badger" ∨
        defaultedEngine o = "memory")) ∧
    (∀ o2, o.validate = Except.ok o2 →
      o2.engine = defaultedEngine o ∧ o2.dbpath = o.dbpath) ∧
    ((defaultedEngine o ≠ "bolt" ∧ defaultedEngine o ≠ "badger" ∧
        defaultedEngine o ≠ "memory") →
      o.validate = Except.error ("unsupported engine \"" ++ defaultedEngine o ++ "\"")) := by
  have hde : (if o.engine = "" then
      (if o.dbpath = "" then { o with engine := "memory" }
        else { o with engine := "bolt" })
      else o).engine = defaultedEngine o := by
    unfold defaultedEngine
    split <;> [skip; rfl]
    split <;> rfl
  have hdp : (if o.engine = "" then
      (if o.dbpath = "" then { o with engine := "memory" }
        else { o with engine := "bolt" })
      else o).dbpath = o.dbpath := by
    split <;> [skip; rfl]
    split <;> rfl
  unfold Options.validate
  simp only [hde]
  refine ⟨?_, ?_, ?_⟩
  · split
    · rename_i h
      simp only [exceptOk]
      simpa using h
    · rename_i h
      simp only [exceptOk]
      simpa using h
  · intro o2 h2
    split at h2
    · cases h2
      exact ⟨hde, hdp⟩
    · cases h2
  · intro ⟨h1, h2, h3⟩
    split
    · rename_i h
      rcases h with h | h | h <;> simp_all
    · rfl

/-- Witness for C10 at a concrete input: a non-empty unsupported engine name
is rejected with the unsupported-engine error. -/
theorem C10_options_validate_witness :
    exceptOk (Options.validate ⟨"lmdb", ""⟩) = true ↔
      (defaultedEngine ⟨"lmdb", ""⟩ = "bolt" ∨ defaultedEngine ⟨"lmdb", ""⟩ = "badger" ∨
        defaultedEngine ⟨"lmdb", ""⟩ = "memory") :=
  (C10_options_validate ⟨"lmdb", ""⟩).1

end Genji
